import Mathlib

/-!
# Thread pool: an embedding of `thread_pool.hpp` / `thread_pool.cpp`

The class `ThreadPool` is embedded as a record of its data members together
with the control state of every worker thread and the shared states of the
packaged tasks.  Each critical section of the source (a block that holds
`queueMutex`) is one atomic step; whatever a thread does outside the lock is a
step of its own, so that the steps of different threads interleave freely.

`start` and `stop` read and write the vector `workers` outside the lock, so
they are called from one controlling thread; `enqueue` and the workers run
concurrently with it.

The pool never looks inside a task: all it can observe of the bound callable
is whether running it returns a value or throws, so a callable is recorded by
the outcome it produces.  The library types the source relies on are embedded
with the behaviour the C++ standard gives them: `std::queue` is a list with
the front at the head, `std::packaged_task::operator()` stores the value or the
exception of the callable in its shared state and throws only if that state
already holds a result, and `std::future::get` waits for the shared state,
hands its content over and leaves the future without a state.
-/

namespace ThreadPool

/-- What invoking the bound callable `std::bind(f, args...)` produces: the
value it returns (of type `return_type`, here `α`) or the exception it throws. -/
inductive Outcome (α ε : Type) where
  | value (v : α)
  | failure (e : ε)
  deriving DecidableEq, Repr

/-- The element stored in the queue: the closure `[task]() { (*task)(); }`.
`slot` identifies the packaged task allocated by `std::make_shared` (and the
shared state its future reads), `fn` is the bound callable it wraps. -/
structure Task (α ε : Type) where
  slot : Nat
  fn : Outcome α ε
  deriving DecidableEq, Repr

/-- Control state of one worker thread inside the loop of `start`. -/
inductive Phase (α ε : Type) where
  /-- at `condition.wait`, holding no task -/
  | waiting
  /-- left the critical section with a task moved out of the queue, about to call `task()` -/
  | running (t : Task α ε)
  /-- returned from the loop (`if (stopFlag && tasks.empty()) return;`) -/
  | exited
  /-- an exception left `task()`: the thread function was abandoned -/
  | terminated
  deriving DecidableEq, Repr

/-- One element of `workers`: a `std::thread` and where it stands. -/
structure Worker (α ε : Type) where
  tid : Nat
  phase : Phase α ε
  deriving DecidableEq, Repr

/-- The exception thrown by `enqueue`. -/
inductive PoolError where
  | runtime_error (what : String)
  deriving DecidableEq, Repr

/-- The `std::future` returned by `enqueue`: a reference to a shared state,
valid until `get` is called. -/
structure Future where
  slot : Nat
  valid : Bool
  deriving DecidableEq, Repr

end ThreadPool

/-- The data members of `class ThreadPool` (`workers`, `tasks`, `stopFlag`,
`num_threads`), the shared states of the packaged tasks created so far, and
history variables: `joining` (the controlling thread is inside `stop`, past the
critical section), `nextTid` (thread identifiers handed out so far), `accepted`
(tasks pushed on the queue, in order), `taken` (tasks popped by workers, in
order), `executed` (tasks whose callable has been run, in order). -/
structure ThreadPool (α ε : Type) where
  workers : List (ThreadPool.Worker α ε)
  tasks : List (ThreadPool.Task α ε)
  stopFlag : Bool
  num_threads : Nat
  shared : List (Option (ThreadPool.Outcome α ε))
  joining : Bool
  nextTid : Nat
  accepted : List (ThreadPool.Task α ε)
  taken : List (ThreadPool.Task α ε)
  executed : List (ThreadPool.Task α ε)
  deriving DecidableEq, Repr

namespace ThreadPool

variable {α ε : Type}

/-- `ThreadPool::enqueue`: build the packaged task and its future, then, under
the lock, throw if `stopFlag` is set and push the closure otherwise.  The
result is what the call returns or throws, paired with the pool after the call. -/
def enqueue (s : ThreadPool α ε) (f : Outcome α ε) :
    Except PoolError Future × ThreadPool α ε :=
  let task : Task α ε := { slot := s.shared.length, fn := f }
  let res : Future := { slot := task.slot, valid := true }
  if s.stopFlag then
    (.error (.runtime_error "enqueue on stopped ThreadPool"), s)
  else
    (.ok res, { s with
      tasks := s.tasks ++ [task]
      shared := s.shared ++ [none]
      accepted := s.accepted ++ [task] })

/-- The thread created by one `workers.emplace_back([this] { ... })`. -/
def spawn (tid : Nat) : Worker α ε := { tid := tid, phase := .waiting }

/-- `ThreadPool::start`: return if `workers` is not empty; otherwise clear
`stopFlag`, store the thread count and spawn that many workers. -/
def start (s : ThreadPool α ε) (numThreads : Nat) : ThreadPool α ε :=
  if !s.workers.isEmpty then s
  else
    { s with
      stopFlag := false
      num_threads := numThreads
      workers := s.workers ++ (List.range numThreads).map (fun i => spawn (s.nextTid + i))
      nextTid := s.nextTid + numThreads }

/-- The member initialisers of `ThreadPool::ThreadPool`. -/
def init (numThreads : Nat) : ThreadPool α ε :=
  { workers := [], tasks := [], stopFlag := false, num_threads := numThreads,
    shared := [], joining := false, nextTid := 0,
    accepted := [], taken := [], executed := [] }

/-- `ThreadPool::ThreadPool(numThreads)`: initialise the members, then `start(numThreads)`. -/
def construct (numThreads : Nat) : ThreadPool α ε :=
  start (init numThreads) numThreads

/-- `(*task)()` on a packaged task: run the callable and store what it produced
in the shared state; throws (`none`) when the shared state already holds a
result, without running the callable. -/
def packagedCall (t : Task α ε) (shared : List (Option (Outcome α ε))) :
    Option (List (Option (Outcome α ε))) :=
  match shared[t.slot]? with
  | some none => some (shared.set t.slot (some t.fn))
  | _ => none

/-- One step of worker `i`.  Waiting: the critical section of the loop (wait
until `stopFlag || !tasks.empty()`, return if stopped and empty, else move the
front task out and pop).  Running: `task()` outside the lock. -/
def workerStep (s : ThreadPool α ε) (i : Nat) : ThreadPool α ε :=
  match s.workers[i]? with
  | none => s
  | some w =>
    match w.phase with
    | .waiting =>
      match s.tasks with
      | [] =>
        if s.stopFlag then { s with workers := s.workers.set i { w with phase := .exited } }
        else s
      | t :: rest =>
        { s with
          tasks := rest
          workers := s.workers.set i { w with phase := .running t }
          taken := s.taken ++ [t] }
    | .running t =>
      match packagedCall t s.shared with
      | some sh =>
        { s with
          shared := sh
          executed := s.executed ++ [t]
          workers := s.workers.set i { w with phase := .waiting } }
      | none => { s with workers := s.workers.set i { w with phase := .terminated } }
    | .exited => s
    | .terminated => s

/-- The critical section of `ThreadPool::stop`: return at once if `stopFlag`
is set, otherwise set it and go on to join the workers. -/
def stopSignal (s : ThreadPool α ε) : ThreadPool α ε :=
  if s.stopFlag then s else { s with stopFlag := true, joining := true }

/-- Every worker thread has returned, so that every `join` returns. -/
def allExited (s : ThreadPool α ε) : Bool :=
  s.workers.all (fun w => match w.phase with | .exited => true | _ => false)

/-- The rest of `ThreadPool::stop`, once every `worker.join()` has returned:
`workers.clear()`. -/
def stopJoin (s : ThreadPool α ε) : ThreadPool α ε :=
  if s.joining && allExited s then { s with workers := [], joining := false } else s

/-- Let worker `i` run alone until its thread function has ended. -/
def runToExit : Nat → ThreadPool α ε → Nat → ThreadPool α ε
  | 0, s, _ => s
  | k + 1, s, i =>
    match s.workers[i]? with
    | none => s
    | some w =>
      match w.phase with
      | .exited => s
      | .terminated => s
      | _ => runToExit k (workerStep s i) i

/-- The loop `for (std::thread &worker : workers) worker.join();` under the
schedule in which the thread being joined is the one that runs. -/
def joinAll (s : ThreadPool α ε) : ThreadPool α ε :=
  (List.range s.workers.length).foldl
    (fun st i => runToExit (2 * st.tasks.length + 2) st i) s

/-- `ThreadPool::stop` as one call: the critical section, the joins, the clear. -/
def stop (s : ThreadPool α ε) : ThreadPool α ε :=
  if s.stopFlag then s else stopJoin (joinAll (stopSignal s))

/-- `std::future::get`. -/
inductive GetResult (α ε : Type) where
  /-- the precondition `valid()` does not hold: no result is defined -/
  | noState
  /-- the shared state is not ready: the caller stays blocked -/
  | blocked
  /-- the stored outcome is handed over and the future is left invalid -/
  | done (o : Outcome α ε) (h : Future)
  deriving DecidableEq, Repr

/-- `std::future::get` on the future `h`, given the shared states. -/
def Future.get (h : Future) (shared : List (Option (Outcome α ε))) : GetResult α ε :=
  if h.valid then
    match shared[h.slot]? with
    | some (some o) => .done o { h with valid := false }
    | _ => .blocked
  else .noState

/-- What can happen next: a call of `enqueue` from any thread, a step of a
worker, or the controlling thread entering `stop`, finishing `stop`, or
calling `start`. -/
inductive Event (α ε : Type) where
  | submit (f : Outcome α ε)
  | worker (i : Nat)
  | stopSignal
  | stopJoin
  | start (n : Nat)
  deriving DecidableEq, Repr

/-- Events of the controlling thread. -/
def Event.isController : Event α ε → Bool
  | .stopSignal => true
  | .stopJoin => true
  | .start _ => true
  | _ => false

/-- The effect of one event.  The controlling thread cannot enter `stop` or `start` while it is inside `stop`. -/
def step (s : ThreadPool α ε) : Event α ε → ThreadPool α ε
  | .submit f => (enqueue s f).2
  | .worker i => workerStep s i
  | .stopSignal => if s.joining then s else stopSignal s
  | .stopJoin => stopJoin s
  | .start n => if s.joining then s else start s n

/-- The pool after a sequence of events. -/
def run (s : ThreadPool α ε) (evs : List (Event α ε)) : ThreadPool α ε :=
  evs.foldl step s

/-- The task a worker holds, if it is about to run one. -/
def Phase.held : Phase α ε → Option (Task α ε)
  | .running t => some t
  | _ => none

/-- Steps a worker still has to make before its thread function returns, beyond
two for every queued task, once the stop flag is set. -/
def Phase.weight : Phase α ε → Nat
  | .waiting => 1
  | .running _ => 2
  | .exited => 0
  | .terminated => 0

/-- Worker steps still to come once the stop flag is set: two for every queued
task (pop it, run it) and the weight of every worker. -/
def work (s : ThreadPool α ε) : Nat :=
  2 * s.tasks.length + (s.workers.map (fun w => w.phase.weight)).sum

/-- Tasks popped by workers and not yet run. -/
def inFlight (s : ThreadPool α ε) : List (Task α ε) :=
  s.workers.filterMap (fun w => w.phase.held)

/-- The invariant of the pool. -/
structure Inv (s : ThreadPool α ε) : Prop where
  /-- popped tasks, then queued tasks, are the accepted tasks in order -/
  fifo : s.taken ++ s.tasks = s.accepted
  /-- the `i`-th accepted task owns shared state `i` -/
  slots : s.accepted.map Task.slot = List.range s.accepted.length
  /-- a popped task has been run or is held by a worker -/
  held : (s.executed ++ inFlight s).Perm s.taken
  /-- a task that has been run has its own outcome stored -/
  ready : ∀ t ∈ s.executed, s.shared[t.slot]? = some (some t.fn)
  /-- a task that has not been run has an empty shared state -/
  pending : ∀ t ∈ s.accepted, t ∉ s.executed → s.shared[t.slot]? = some none
  sharedLen : s.shared.length = s.accepted.length
  /-- no exception has left a worker -/
  alive : ∀ w ∈ s.workers, w.phase ≠ .terminated
  joinFlag : s.joining = true → s.stopFlag = true
  /-- once `stop` has returned there are no workers -/
  stopped : s.stopFlag = true → s.joining = false → s.workers = []
  /-- workers return only after the stop signal -/
  noExit : s.stopFlag = false → ∀ w ∈ s.workers, w.phase ≠ .exited
  /-- a worker returns only from an empty queue, which then stays empty -/
  drained : (∃ w ∈ s.workers, w.phase = .exited) → s.tasks = []
  tids : ∀ w ∈ s.workers, w.tid < s.nextTid
  tidsNodup : (s.workers.map Worker.tid).Nodup

/-! ## Lists of workers -/

theorem held_set_take (ws : List (Worker α ε)) (i : Nat) (w w' : Worker α ε) (t : Task α ε)
    (h : ws[i]? = some w) (hw : w.phase.held = none) (hw' : w'.phase.held = some t) :
    ((ws.set i w').filterMap (fun w => w.phase.held)).Perm
      (t :: ws.filterMap (fun w => w.phase.held)) := by
  induction ws generalizing i with
  | nil => simp at h
  | cons a l ih =>
    cases i with
    | zero =>
      simp at h
      subst h
      simp [List.filterMap_cons, hw, hw']
    | succ j =>
      simp at h
      have := ih j h
      simp only [List.set_cons_succ, List.filterMap_cons]
      cases a.phase.held with
      | none => simpa using this
      | some b => exact (List.Perm.cons b this).trans (List.Perm.swap _ _ _)

theorem held_set_done (ws : List (Worker α ε)) (i : Nat) (w w' : Worker α ε) (t : Task α ε)
    (h : ws[i]? = some w) (hw : w.phase.held = some t) (hw' : w'.phase.held = none) :
    (t :: (ws.set i w').filterMap (fun w => w.phase.held)).Perm
      (ws.filterMap (fun w => w.phase.held)) := by
  induction ws generalizing i with
  | nil => simp at h
  | cons a l ih =>
    cases i with
    | zero =>
      simp at h
      subst h
      simp [List.filterMap_cons, hw, hw']
    | succ j =>
      simp at h
      have := ih j h
      simp only [List.set_cons_succ, List.filterMap_cons]
      cases a.phase.held with
      | none => simpa using this
      | some b => exact (List.Perm.swap _ _ _).trans (List.Perm.cons b this)

theorem held_set_same (ws : List (Worker α ε)) (i : Nat) (w w' : Worker α ε)
    (h : ws[i]? = some w) (hw : w'.phase.held = w.phase.held) :
    (ws.set i w').filterMap (fun w => w.phase.held) = ws.filterMap (fun w => w.phase.held) := by
  induction ws generalizing i with
  | nil => simp at h
  | cons a l ih =>
    cases i with
    | zero =>
      simp at h
      subst h
      simp [List.filterMap_cons, hw]
    | succ j =>
      simp at h
      simp only [List.set_cons_succ, List.filterMap_cons, ih j h]

theorem tid_set (ws : List (Worker α ε)) (i : Nat) (w w' : Worker α ε)
    (h : ws[i]? = some w) (hw : w'.tid = w.tid) :
    (ws.set i w').map Worker.tid = ws.map Worker.tid := by
  induction ws generalizing i with
  | nil => simp at h
  | cons a l ih =>
    cases i with
    | zero =>
      simp at h
      subst h
      simp [hw]
    | succ j =>
      simp at h
      simp only [List.set_cons_succ, List.map_cons, ih j h]

/-! ## The invariant is established and preserved -/

theorem inv_init (n : Nat) : Inv (init n : ThreadPool α ε) := by
  constructor <;> simp [init, inFlight]

theorem start_of_workers {s : ThreadPool α ε} (n : Nat) (h : s.workers ≠ []) :
    start s n = s := by
  cases hw : s.workers with
  | nil => exact absurd hw h
  | cons a l => simp [start, hw]

theorem start_of_empty {s : ThreadPool α ε} (n : Nat) (h : s.workers = []) :
    start s n = { s with
      stopFlag := false
      num_threads := n
      workers := (List.range n).map (fun i => spawn (s.nextTid + i))
      nextTid := s.nextTid + n } := by
  simp [start, h]

theorem inv_start {s : ThreadPool α ε} (n : Nat) (h : Inv s) (hj : s.joining = false) :
    Inv (start s n) := by
  by_cases hw : s.workers = []
  · rw [start_of_empty n hw]
    have hfl : inFlight s = [] := by simp [inFlight, hw]
    have hfl' : List.filterMap (fun w : Worker α ε => w.phase.held)
        ((List.range n).map (fun i => spawn (s.nextTid + i))) = [] := by
      simp [List.filterMap_eq_nil_iff, spawn, Phase.held]
    constructor
    · exact h.fifo
    · exact h.slots
    · have := h.held
      simp only [inFlight, hfl'] at *
      simpa [hw] using this
    · exact h.ready
    · exact h.pending
    · exact h.sharedLen
    · intro w hw
      simp only [List.mem_map, List.mem_range] at hw
      obtain ⟨i, _, rfl⟩ := hw
      simp [spawn]
    · simp [hj]
    · simp
    · intro _ w hw
      simp only [List.mem_map, List.mem_range] at hw
      obtain ⟨i, _, rfl⟩ := hw
      simp [spawn]
    · rintro ⟨w, hw, he⟩
      simp only [List.mem_map, List.mem_range] at hw
      obtain ⟨i, _, rfl⟩ := hw
      simp [spawn] at he
    · intro w hw
      simp only [List.mem_map, List.mem_range] at hw
      obtain ⟨i, hi, rfl⟩ := hw
      simp [spawn]
      omega
    · simp only [List.map_map]
      refine (List.nodup_range n).map ?_
      intro a b hab
      simp [spawn] at hab
      exact hab
  · rw [start_of_workers n hw]
    exact h

theorem enqueue_of_stopped {s : ThreadPool α ε} (f : Outcome α ε) (h : s.stopFlag = true) :
    enqueue s f = (.error (.runtime_error "enqueue on stopped ThreadPool"), s) := by
  simp [enqueue, h]

theorem enqueue_of_running {s : ThreadPool α ε} (f : Outcome α ε) (h : s.stopFlag = false) :
    enqueue s f = (.ok ⟨s.shared.length, true⟩, { s with
      tasks := s.tasks ++ [⟨s.shared.length, f⟩]
      shared := s.shared ++ [none]
      accepted := s.accepted ++ [⟨s.shared.length, f⟩] }) := by
  simp [enqueue, h]

theorem inv_enqueue {s : ThreadPool α ε} (f : Outcome α ε) (h : Inv s) :
    Inv (enqueue s f).2 := by
  cases hf : s.stopFlag with
  | true => rw [enqueue_of_stopped f hf]; exact h
  | false =>
    rw [enqueue_of_running f hf]
    have hlen := h.sharedLen
    constructor
    · show s.taken ++ (s.tasks ++ _) = s.accepted ++ _
      rw [← List.append_assoc, h.fifo]
    · show List.map Task.slot (s.accepted ++ _) = List.range (s.accepted ++ _).length
      simp [List.range_succ, h.slots, hlen]
    · exact h.held
    · intro t ht
      have := h.ready t ht
      show (s.shared ++ [none])[t.slot]? = _
      have hlt : t.slot < s.shared.length := by
        by_contra hc
        rw [List.getElem?_eq_none (by omega)] at this
        cases this
      rw [List.getElem?_append_left hlt]
      exact this
    · intro t ht hne
      show (s.shared ++ [none])[t.slot]? = _
      rcases List.mem_append.1 ht with ht | ht
      · have := h.pending t ht hne
        have hlt : t.slot < s.shared.length := by
          by_contra hc
          rw [List.getElem?_eq_none (by omega)] at this
          cases this
        rw [List.getElem?_append_left hlt]
        exact this
      · simp at ht
        subst ht
        simp
    · show (s.shared ++ [none]).length = (s.accepted ++ _).length
      simp [hlen]
    · exact h.alive
    · exact h.joinFlag
    · exact h.stopped
    · exact h.noExit
    · intro hex
      obtain ⟨w, hw, he⟩ := hex
      exact absurd he (h.noExit hf w hw)
    · exact h.tids
    · exact h.tidsNodup

/-! ## Steps of a worker -/

theorem workerStep_none {s : ThreadPool α ε} {i : Nat} (h : s.workers[i]? = none) :
    workerStep s i = s := by
  simp [workerStep, h]

theorem workerStep_blocked {s : ThreadPool α ε} {i : Nat} {w : Worker α ε}
    (h : s.workers[i]? = some w) (hp : w.phase = .waiting) (ht : s.tasks = [])
    (hf : s.stopFlag = false) : workerStep s i = s := by
  simp [workerStep, h, hp, ht, hf]

theorem workerStep_exit {s : ThreadPool α ε} {i : Nat} {w : Worker α ε}
    (h : s.workers[i]? = some w) (hp : w.phase = .waiting) (ht : s.tasks = [])
    (hf : s.stopFlag = true) :
    workerStep s i = { s with workers := s.workers.set i { w with phase := .exited } } := by
  simp [workerStep, h, hp, ht, hf]

theorem workerStep_take {s : ThreadPool α ε} {i : Nat} {w : Worker α ε} {t : Task α ε}
    {rest : List (Task α ε)}
    (h : s.workers[i]? = some w) (hp : w.phase = .waiting) (ht : s.tasks = t :: rest) :
    workerStep s i = { s with
      tasks := rest
      workers := s.workers.set i { w with phase := .running t }
      taken := s.taken ++ [t] } := by
  simp [workerStep, h, hp, ht]

theorem workerStep_exec {s : ThreadPool α ε} {i : Nat} {w : Worker α ε} {t : Task α ε}
    {sh : List (Option (Outcome α ε))}
    (h : s.workers[i]? = some w) (hp : w.phase = .running t)
    (hc : packagedCall t s.shared = some sh) :
    workerStep s i = { s with
      shared := sh
      executed := s.executed ++ [t]
      workers := s.workers.set i { w with phase := .waiting } } := by
  simp [workerStep, h, hp, hc]

theorem workerStep_exited {s : ThreadPool α ε} {i : Nat} {w : Worker α ε}
    (h : s.workers[i]? = some w) (hp : w.phase = .exited) : workerStep s i = s := by
  simp [workerStep, h, hp]

theorem workerStep_terminated {s : ThreadPool α ε} {i : Nat} {w : Worker α ε}
    (h : s.workers[i]? = some w) (hp : w.phase = .terminated) : workerStep s i = s := by
  simp [workerStep, h, hp]

theorem accepted_nodup {s : ThreadPool α ε} (h : Inv s) : s.accepted.Nodup := by
  apply List.Nodup.of_map Task.slot
  rw [h.slots]
  exact List.nodup_range _

theorem taken_nodup {s : ThreadPool α ε} (h : Inv s) : s.taken.Nodup := by
  have := accepted_nodup h
  rw [← h.fifo] at this
  exact this.of_append_left

theorem mem_inFlight {s : ThreadPool α ε} {i : Nat} {w : Worker α ε} {t : Task α ε}
    (h : s.workers[i]? = some w) (hp : w.phase = .running t) : t ∈ inFlight s := by
  simp only [inFlight, List.mem_filterMap]
  exact ⟨w, List.getElem?_mem h, by simp [hp, Phase.held]⟩

/-- A task held by a worker has been accepted, has not been run, and its
shared state is still empty: invoking it stores its outcome and does not throw. -/
theorem held_fresh {s : ThreadPool α ε} {i : Nat} {w : Worker α ε} {t : Task α ε}
    (hI : Inv s) (h : s.workers[i]? = some w) (hp : w.phase = .running t) :
    t ∈ s.accepted ∧ t ∉ s.executed ∧
      packagedCall t s.shared = some (s.shared.set t.slot (some t.fn)) := by
  have hfl := mem_inFlight h hp
  have hnd : (s.executed ++ inFlight s).Nodup := hI.held.nodup_iff.2 (taken_nodup hI)
  have hne : t ∉ s.executed := by
    intro hc
    exact (List.nodup_append.1 hnd).2.2 hc hfl
  have hacc : t ∈ s.accepted := by
    rw [← hI.fifo]
    exact List.mem_append_left _ (hI.held.subset (List.mem_append_right _ hfl))
  refine ⟨hacc, hne, ?_⟩
  simp [packagedCall, hI.pending t hacc hne]

theorem inv_workerStep {s : ThreadPool α ε} (i : Nat) (h : Inv s) : Inv (workerStep s i) := by
  cases hw : s.workers[i]? with
  | none => rw [workerStep_none hw]; exact h
  | some w =>
    have hwmem : w ∈ s.workers := List.getElem?_mem hw
    have hne : s.workers ≠ [] := List.ne_nil_of_mem hwmem
    cases hp : w.phase with
    | exited => rw [workerStep_exited hw hp]; exact h
    | terminated => rw [workerStep_terminated hw hp]; exact h
    | waiting =>
      cases ht : s.tasks with
      | nil =>
        cases hf : s.stopFlag with
        | false => rw [workerStep_blocked hw hp ht hf]; exact h
        | true =>
          rw [workerStep_exit hw hp ht hf]
          constructor
          · exact h.fifo
          · exact h.slots
          · have e := held_set_same s.workers i w { w with phase := .exited } hw
              (by simp [hp, Phase.held])
            show (s.executed ++ List.filterMap _ (s.workers.set i _)).Perm s.taken
            rw [e]
            exact h.held
          · exact h.ready
          · exact h.pending
          · exact h.sharedLen
          · intro x hx
            rcases List.mem_or_eq_of_mem_set hx with hx | hx
            · exact h.alive x hx
            · subst hx; simp
          · exact h.joinFlag
          · intro h1 h2
            exact absurd (h.stopped h1 h2) hne
          · intro h1
            change s.stopFlag = false at h1
            rw [hf] at h1
            cases h1
          · intro _
            exact ht
          · intro x hx
            rcases List.mem_or_eq_of_mem_set hx with hx | hx
            · exact h.tids x hx
            · subst hx; exact h.tids w hwmem
          · show ((s.workers.set i _).map Worker.tid).Nodup
            rw [tid_set s.workers i w { w with phase := .exited } hw rfl]
            exact h.tidsNodup
      | cons t rest =>
        rw [workerStep_take hw hp ht]
        constructor
        · show (s.taken ++ [t]) ++ rest = s.accepted
          rw [List.append_assoc, ← h.fifo, ht]
          rfl
        · exact h.slots
        · have e := held_set_take s.workers i w { w with phase := .running t } t hw
            (by simp [hp, Phase.held]) (by simp [Phase.held])
          show (s.executed ++ List.filterMap _ (s.workers.set i _)).Perm (s.taken ++ [t])
          refine ((List.Perm.append_left s.executed e).trans ?_)
          refine (List.perm_middle).trans ?_
          refine (List.Perm.cons t h.held).trans ?_
          exact (List.perm_append_singleton t s.taken).symm
        · exact h.ready
        · exact h.pending
        · exact h.sharedLen
        · intro x hx
          rcases List.mem_or_eq_of_mem_set hx with hx | hx
          · exact h.alive x hx
          · subst hx; simp
        · exact h.joinFlag
        · intro h1 h2
          exact absurd (h.stopped h1 h2) hne
        · intro h1 x hx
          rcases List.mem_or_eq_of_mem_set hx with hx | hx
          · exact h.noExit h1 x hx
          · subst hx; simp
        · rintro ⟨x, hx, he⟩
          rcases List.mem_or_eq_of_mem_set hx with hx | hx
          · have := h.drained ⟨x, hx, he⟩
            rw [ht] at this
            cases this
          · subst hx; simp at he
        · intro x hx
          rcases List.mem_or_eq_of_mem_set hx with hx | hx
          · exact h.tids x hx
          · subst hx; exact h.tids w hwmem
        · show ((s.workers.set i _).map Worker.tid).Nodup
          rw [tid_set s.workers i w { w with phase := .running t } hw rfl]
          exact h.tidsNodup
    | running t =>
      obtain ⟨hacc, hnex, hcall⟩ := held_fresh h hw hp
      have hpend := h.pending t hacc hnex
      have hlt : t.slot < s.shared.length := by
        by_contra hc
        rw [List.getElem?_eq_none (by omega)] at hpend
        cases hpend
      rw [workerStep_exec hw hp hcall]
      constructor
      · exact h.fifo
      · exact h.slots
      · have e := held_set_done s.workers i w { w with phase := .waiting } t hw
          (by simp [hp, Phase.held]) (by simp [Phase.held])
        show ((s.executed ++ [t]) ++ List.filterMap _ (s.workers.set i _)).Perm s.taken
        rw [List.append_assoc]
        exact (List.Perm.append_left s.executed e).trans h.held
      · intro x hx
        show (s.shared.set t.slot (some t.fn))[x.slot]? = some (some x.fn)
        rcases List.mem_append.1 hx with hx | hx
        · have hr := h.ready x hx
          have hne' : t.slot ≠ x.slot := by
            intro hc
            rw [← hc, hpend] at hr
            cases hr
          rw [List.getElem?_set_ne hne']
          exact hr
        · simp at hx
          subst hx
          rw [List.getElem?_set_self hlt]
      · intro x hx hnx
        show (s.shared.set t.slot (some t.fn))[x.slot]? = some none
        have hnx1 : x ∉ s.executed := fun hc => hnx (List.mem_append_left _ hc)
        have hnx2 : x ≠ t := fun hc => hnx (by simp [hc])
        have hne' : t.slot ≠ x.slot := by
          intro hc
          have hnd : (s.accepted.map Task.slot).Nodup := by
            rw [h.slots]; exact List.nodup_range _
          exact hnx2 (List.inj_on_of_nodup_map hnd hx hacc hc.symm)
        rw [List.getElem?_set_ne hne']
        exact h.pending x hx hnx1
      · show (s.shared.set t.slot (some t.fn)).length = s.accepted.length
        rw [List.length_set]
        exact h.sharedLen
      · intro x hx
        rcases List.mem_or_eq_of_mem_set hx with hx | hx
        · exact h.alive x hx
        · subst hx; simp
      · exact h.joinFlag
      · intro h1 h2
        exact absurd (h.stopped h1 h2) hne
      · intro h1 x hx
        rcases List.mem_or_eq_of_mem_set hx with hx | hx
        · exact h.noExit h1 x hx
        · subst hx; simp
      · rintro ⟨x, hx, he⟩
        rcases List.mem_or_eq_of_mem_set hx with hx | hx
        · exact h.drained ⟨x, hx, he⟩
        · subst hx; simp at he
      · intro x hx
        rcases List.mem_or_eq_of_mem_set hx with hx | hx
        · exact h.tids x hx
        · subst hx; exact h.tids w hwmem
      · show ((s.workers.set i _).map Worker.tid).Nodup
        rw [tid_set s.workers i w { w with phase := .waiting } hw rfl]
        exact h.tidsNodup

/-! ## Steps of the controlling thread, and runs -/

theorem stopSignal_of_stopped {s : ThreadPool α ε} (h : s.stopFlag = true) :
    stopSignal s = s := by
  simp [stopSignal, h]

theorem stopSignal_of_running {s : ThreadPool α ε} (h : s.stopFlag = false) :
    stopSignal s = { s with stopFlag := true, joining := true } := by
  simp [stopSignal, h]

theorem inv_stopSignal {s : ThreadPool α ε} (h : Inv s) : Inv (stopSignal s) := by
  cases hf : s.stopFlag with
  | true => rw [stopSignal_of_stopped hf]; exact h
  | false =>
    rw [stopSignal_of_running hf]
    constructor
    · exact h.fifo
    · exact h.slots
    · exact h.held
    · exact h.ready
    · exact h.pending
    · exact h.sharedLen
    · exact h.alive
    · intro _; rfl
    · intro _ h2; cases h2
    · intro h1; cases h1
    · rintro ⟨w, hw, he⟩
      exact absurd he (h.noExit hf w hw)
    · exact h.tids
    · exact h.tidsNodup

theorem allExited_iff {s : ThreadPool α ε} :
    allExited s = true ↔ ∀ w ∈ s.workers, w.phase = .exited := by
  simp only [allExited, List.all_eq_true]
  constructor
  · intro h w hw
    have := h w hw
    cases hp : w.phase <;> simp [hp] at this ⊢
  · intro h w hw
    simp [h w hw]

theorem inFlight_of_allExited {s : ThreadPool α ε} (h : allExited s = true) :
    inFlight s = [] := by
  rw [allExited_iff] at h
  simp only [inFlight, List.filterMap_eq_nil_iff]
  intro w hw
  simp [h w hw, Phase.held]

theorem stopJoin_of_ready {s : ThreadPool α ε} (hj : s.joining = true)
    (he : allExited s = true) : stopJoin s = { s with workers := [], joining := false } := by
  simp [stopJoin, hj, he]

theorem stopJoin_of_not {s : ThreadPool α ε} (h : ¬ (s.joining = true ∧ allExited s = true)) :
    stopJoin s = s := by
  simp only [stopJoin]
  rw [if_neg]
  simpa using h

theorem inv_stopJoin {s : ThreadPool α ε} (h : Inv s) : Inv (stopJoin s) := by
  by_cases hc : s.joining = true ∧ allExited s = true
  · rw [stopJoin_of_ready hc.1 hc.2]
    constructor
    · exact h.fifo
    · exact h.slots
    · have := h.held
      rw [inFlight_of_allExited hc.2] at this
      simpa [inFlight] using this
    · exact h.ready
    · exact h.pending
    · exact h.sharedLen
    · intro w hw; cases hw
    · intro h1; cases h1
    · intro _ _; rfl
    · intro _ w hw; cases hw
    · rintro ⟨w, hw, _⟩; cases hw
    · intro w hw; cases hw
    · exact List.nodup_nil
  · rw [stopJoin_of_not hc]; exact h

theorem inv_step {s : ThreadPool α ε} (e : Event α ε) (h : Inv s) : Inv (step s e) := by
  cases e with
  | submit f => exact inv_enqueue f h
  | worker i => exact inv_workerStep i h
  | stopSignal =>
    simp only [step]
    split
    · exact h
    · exact inv_stopSignal h
  | stopJoin => exact inv_stopJoin h
  | start n =>
    simp only [step]
    split
    · exact h
    · exact inv_start n h (by simpa using ‹¬ s.joining = true›)

theorem inv_run {s : ThreadPool α ε} (evs : List (Event α ε)) (h : Inv s) : Inv (run s evs) := by
  induction evs generalizing s with
  | nil => exact h
  | cons e es ih => exact ih (inv_step e h)

theorem inv_construct (n : Nat) : Inv (construct n : ThreadPool α ε) :=
  inv_start n (inv_init n) rfl

/-- Every state the pool can reach satisfies the invariant. -/
theorem inv_reach (n : Nat) (evs : List (Event α ε)) : Inv (run (construct n) evs) :=
  inv_run evs (inv_construct n)

/-! ## What a worker step leaves alone -/

theorem workerStep_frame (s : ThreadPool α ε) (i : Nat) :
    (workerStep s i).stopFlag = s.stopFlag ∧ (workerStep s i).joining = s.joining ∧
    (workerStep s i).accepted = s.accepted ∧ (workerStep s i).num_threads = s.num_threads ∧
    (workerStep s i).nextTid = s.nextTid ∧
    (workerStep s i).workers.length = s.workers.length ∧
    (workerStep s i).workers.map Worker.tid = s.workers.map Worker.tid ∧
    ∀ j, j ≠ i → (workerStep s i).workers[j]? = s.workers[j]? := by
  cases hw : s.workers[i]? with
  | none => rw [workerStep_none hw]; simp
  | some w =>
    have hset : ∀ w' : Worker α ε, w'.tid = w.tid →
        (s.workers.set i w').length = s.workers.length ∧
        (s.workers.set i w').map Worker.tid = s.workers.map Worker.tid ∧
        ∀ j, j ≠ i → (s.workers.set i w')[j]? = s.workers[j]? := by
      intro w' hw'
      refine ⟨List.length_set _ _ _, tid_set s.workers i w w' hw hw', ?_⟩
      intro j hj
      exact List.getElem?_set_ne (Ne.symm hj)
    cases hp : w.phase with
    | exited => rw [workerStep_exited hw hp]; simp
    | terminated => rw [workerStep_terminated hw hp]; simp
    | waiting =>
      cases ht : s.tasks with
      | nil =>
        cases hf : s.stopFlag with
        | false => rw [workerStep_blocked hw hp ht hf]; simp [hf]
        | true =>
          rw [workerStep_exit hw hp ht hf]
          exact ⟨hf, rfl, rfl, rfl, rfl, hset _ rfl⟩
      | cons t rest =>
        rw [workerStep_take hw hp ht]
        exact ⟨rfl, rfl, rfl, rfl, rfl, hset _ rfl⟩
    | running t =>
      cases hc : packagedCall t s.shared with
      | some sh =>
        rw [workerStep_exec hw hp hc]
        exact ⟨rfl, rfl, rfl, rfl, rfl, hset _ rfl⟩
      | none =>
        have : workerStep s i =
            { s with workers := s.workers.set i { w with phase := .terminated } } := by
          simp [workerStep, hw, hp, hc]
        rw [this]
        exact ⟨rfl, rfl, rfl, rfl, rfl, hset _ rfl⟩

theorem runToExit_exited {s : ThreadPool α ε} {i : Nat} {w : Worker α ε} (k : Nat)
    (h : s.workers[i]? = some w) (hp : w.phase = .exited) : runToExit k s i = s := by
  cases k with
  | zero => rfl
  | succ k => simp [runToExit, h, hp]

theorem runToExit_step {s : ThreadPool α ε} {i : Nat} {w : Worker α ε} (k : Nat)
    (h : s.workers[i]? = some w) (hp : w.phase ≠ .exited) (hp' : w.phase ≠ .terminated) :
    runToExit (k + 1) s i = runToExit k (workerStep s i) i := by
  cases hq : w.phase with
  | exited => exact absurd hq hp
  | terminated => exact absurd hq hp'
  | waiting => simp [runToExit, h, hq]
  | running t => simp [runToExit, h, hq]

/-- With the stop flag set, a worker that runs alone returns from its loop
within the fuel `2 * tasks.length + weight`; the other workers are untouched. -/
theorem runToExit_spec (k : Nat) : ∀ (s : ThreadPool α ε) (i : Nat) (w : Worker α ε),
    Inv s → s.stopFlag = true → s.workers[i]? = some w →
    2 * s.tasks.length + w.phase.weight ≤ k →
    Inv (runToExit k s i) ∧ (runToExit k s i).stopFlag = true ∧
    (runToExit k s i).joining = s.joining ∧
    (runToExit k s i).accepted = s.accepted ∧
    (runToExit k s i).workers.length = s.workers.length ∧
    (∃ w', (runToExit k s i).workers[i]? = some w' ∧ w'.phase = .exited) ∧
    ∀ j, j ≠ i → (runToExit k s i).workers[j]? = s.workers[j]? := by
  induction k with
  | zero =>
    intro s i w hI hf hw hm
    have hph : w.phase = .exited := by
      cases hq : w.phase with
      | exited => rfl
      | terminated => exact absurd hq (hI.alive w (List.getElem?_mem hw))
      | waiting => simp [hq, Phase.weight] at hm
      | running t => simp [hq, Phase.weight] at hm
    exact ⟨hI, hf, rfl, rfl, rfl, ⟨w, hw, hph⟩, fun _ _ => rfl⟩
  | succ k ih =>
    intro s i w hI hf hw hm
    have hlt : i < s.workers.length := by
      by_contra hc
      rw [List.getElem?_eq_none (by omega)] at hw
      cases hw
    have hfr := workerStep_frame s i
    have hI1 := inv_workerStep i hI
    have hf1 : (workerStep s i).stopFlag = true := by rw [hfr.1]; exact hf
    -- the step, once the new state of worker `i` is known
    have next : ∀ w1 : Worker α ε, (workerStep s i).workers[i]? = some w1 →
        2 * (workerStep s i).tasks.length + w1.phase.weight ≤ k →
        w.phase ≠ .exited →
        Inv (runToExit (k + 1) s i) ∧ (runToExit (k + 1) s i).stopFlag = true ∧
        (runToExit (k + 1) s i).joining = s.joining ∧
        (runToExit (k + 1) s i).accepted = s.accepted ∧
        (runToExit (k + 1) s i).workers.length = s.workers.length ∧
        (∃ w', (runToExit (k + 1) s i).workers[i]? = some w' ∧ w'.phase = .exited) ∧
        ∀ j, j ≠ i → (runToExit (k + 1) s i).workers[j]? = s.workers[j]? := by
      intro w1 hw1 hm1 hne
      rw [runToExit_step k hw hne (hI.alive w (List.getElem?_mem hw))]
      obtain ⟨a, b, c, d, e, f, g⟩ := ih (workerStep s i) i w1 hI1 hf1 hw1 hm1
      refine ⟨a, b, c.trans hfr.2.1, d.trans hfr.2.2.1, e.trans hfr.2.2.2.2.2.1, f, ?_⟩
      intro j hj
      rw [g j hj]
      exact hfr.2.2.2.2.2.2.2 j hj
    cases hq : w.phase with
    | exited =>
      rw [runToExit_exited (k + 1) hw hq]
      exact ⟨hI, hf, rfl, rfl, rfl, ⟨w, hw, hq⟩, fun _ _ => rfl⟩
    | terminated => exact absurd hq (hI.alive w (List.getElem?_mem hw))
    | waiting =>
      cases ht : s.tasks with
      | nil =>
        refine next { w with phase := .exited } ?_ ?_ (by simp [hq])
        · rw [workerStep_exit hw hq ht hf]
          exact List.getElem?_set_self hlt
        · rw [workerStep_exit hw hq ht hf]
          simp [ht, Phase.weight]
      | cons t rest =>
        refine next { w with phase := .running t } ?_ ?_ (by simp [hq])
        · rw [workerStep_take hw hq ht]
          exact List.getElem?_set_self hlt
        · rw [workerStep_take hw hq ht]
          simp only [ht, hq, Phase.weight, List.length_cons] at hm ⊢
          omega
    | running t =>
      obtain ⟨_, _, hcall⟩ := held_fresh hI hw hq
      refine next { w with phase := .waiting } ?_ ?_ (by simp [hq])
      · rw [workerStep_exec hw hq hcall]
        exact List.getElem?_set_self hlt
      · rw [workerStep_exec hw hq hcall]
        simp only [hq, Phase.weight] at hm ⊢
        omega

/-! ## Joining the workers -/

theorem joinAll_prefix {s : ThreadPool α ε} (hI : Inv s) (hf : s.stopFlag = true) (m : Nat)
    (hm : m ≤ s.workers.length) :
    let sm := (List.range m).foldl (fun st i => runToExit (2 * st.tasks.length + 2) st i) s
    Inv sm ∧ sm.stopFlag = true ∧ sm.joining = s.joining ∧ sm.accepted = s.accepted ∧
    sm.workers.length = s.workers.length ∧
    ∀ j, j < m → ∃ w', sm.workers[j]? = some w' ∧ w'.phase = .exited := by
  induction m with
  | zero =>
    exact ⟨hI, hf, rfl, rfl, rfl, fun j hj => absurd hj (Nat.not_lt_zero j)⟩
  | succ m ih =>
    obtain ⟨a, b, c, d, e, f⟩ := ih (by omega)
    simp only [List.range_succ, List.foldl_append, List.foldl_cons, List.foldl_nil]
    generalize (List.range m).foldl (fun st i => runToExit (2 * st.tasks.length + 2) st i) s
      = sm at a b c d e f
    have hlt : m < sm.workers.length := by omega
    have hw : sm.workers[m]? = some sm.workers[m] := List.getElem?_eq_getElem hlt
    have hwt : 2 * sm.tasks.length + (sm.workers[m]).phase.weight ≤ 2 * sm.tasks.length + 2 := by
      cases (sm.workers[m]).phase <;> simp [Phase.weight]
    obtain ⟨a', b', c', d', e', f', g'⟩ :=
      runToExit_spec (2 * sm.tasks.length + 2) sm m _ a b hw hwt
    refine ⟨a', b', c'.trans c, d'.trans d, e'.trans e, ?_⟩
    intro j hj
    by_cases hjm : j = m
    · subst hjm; exact f'
    · rw [g' j hjm]
      exact f j (by omega)

theorem joinAll_spec {s : ThreadPool α ε} (hI : Inv s) (hf : s.stopFlag = true) :
    Inv (joinAll s) ∧ (joinAll s).stopFlag = true ∧ (joinAll s).joining = s.joining ∧
    (joinAll s).accepted = s.accepted ∧ (joinAll s).workers.length = s.workers.length ∧
    allExited (joinAll s) = true := by
  obtain ⟨a, b, c, d, e, f⟩ := joinAll_prefix hI hf s.workers.length (Nat.le_refl _)
  refine ⟨a, b, c, d, e, ?_⟩
  rw [allExited_iff]
  intro w hw
  obtain ⟨j, hj, rfl⟩ := List.getElem_of_mem hw
  have hj' : j < s.workers.length := by
    have : (joinAll s).workers.length = s.workers.length := e
    omega
  obtain ⟨w', hw', hp⟩ := f j hj'
  have : (joinAll s).workers[j]? = some w' := hw'
  rw [List.getElem?_eq_getElem hj] at this
  injection this with this
  rw [this]
  exact hp

/-- Once the workers have all returned with the queue empty, every accepted
task has been run, exactly once. -/
theorem executed_of_idle {s : ThreadPool α ε} (hI : Inv s) (ht : s.tasks = [])
    (hfl : inFlight s = []) : s.executed.Perm s.accepted := by
  have h1 := hI.held
  have h2 := hI.fifo
  rw [hfl, List.append_nil] at h1
  rw [ht, List.append_nil] at h2
  rw [← h2]
  exact h1

/-- The call `stop()` on a running pool: it returns, with the flag set and the
workers joined and cleared; with at least one worker the queue is empty and
every accepted task has been run. -/
theorem stop_spec {s : ThreadPool α ε} (hI : Inv s) (hf : s.stopFlag = false) :
    Inv (stop s) ∧ (stop s).stopFlag = true ∧ (stop s).joining = false ∧
    (stop s).workers = [] ∧ (stop s).accepted = s.accepted ∧
    (s.workers ≠ [] → (stop s).tasks = [] ∧ (stop s).executed.Perm s.accepted) := by
  have h1 := inv_stopSignal hI
  have hf1 : (stopSignal s).stopFlag = true := by rw [stopSignal_of_running hf]
  have hj1 : (stopSignal s).joining = true := by rw [stopSignal_of_running hf]
  have ha1 : (stopSignal s).accepted = s.accepted := by rw [stopSignal_of_running hf]
  have hw1 : (stopSignal s).workers = s.workers := by rw [stopSignal_of_running hf]
  obtain ⟨a, b, c, d, e, f⟩ := joinAll_spec h1 hf1
  have hst : stop s = stopJoin (joinAll (stopSignal s)) := by simp [stop, hf]
  have hj2 : (joinAll (stopSignal s)).joining = true := c.trans hj1
  have hI3 := inv_stopJoin a
  rw [hst]
  rw [stopJoin_of_ready hj2 f] at hI3 ⊢
  refine ⟨hI3, b, rfl, rfl, d.trans ha1, ?_⟩
  intro hne
  have hne2 : (joinAll (stopSignal s)).workers ≠ [] := by
    intro hc
    rw [hc, hw1] at e
    exact hne (List.length_eq_zero.1 e.symm)
  obtain ⟨w, l, hwl⟩ := List.exists_cons_of_ne_nil hne2
  have hwm : w ∈ (joinAll (stopSignal s)).workers := by rw [hwl]; exact List.mem_cons_self _ _
  have hex := (allExited_iff.1 f) w hwm
  have ht : (joinAll (stopSignal s)).tasks = [] := a.drained ⟨w, hwm, hex⟩
  refine ⟨ht, ?_⟩
  have := executed_of_idle hI3 ht (by simp [inFlight])
  rw [← ha1, ← d]
  exact this

/-! ## The flag and the thread counter across `stop` -/

theorem runToExit_frame (k : Nat) : ∀ (s : ThreadPool α ε) (i : Nat),
    (runToExit k s i).stopFlag = s.stopFlag ∧ (runToExit k s i).nextTid = s.nextTid ∧
    (runToExit k s i).workers.map Worker.tid = s.workers.map Worker.tid := by
  induction k with
  | zero => intro s i; exact ⟨rfl, rfl, rfl⟩
  | succ k ih =>
    intro s i
    have hfr := workerStep_frame s i
    have hnext := ih (workerStep s i) i
    have hgo : (runToExit k (workerStep s i) i).stopFlag = s.stopFlag ∧
        (runToExit k (workerStep s i) i).nextTid = s.nextTid ∧
        (runToExit k (workerStep s i) i).workers.map Worker.tid = s.workers.map Worker.tid :=
      ⟨hnext.1.trans hfr.1, hnext.2.1.trans hfr.2.2.2.2.1, hnext.2.2.trans hfr.2.2.2.2.2.2.1⟩
    cases hw : s.workers[i]? with
    | none => simp [runToExit, hw]
    | some w =>
      cases hp : w.phase with
      | exited => simp [runToExit, hw, hp]
      | terminated => simp [runToExit, hw, hp]
      | waiting => simpa [runToExit, hw, hp] using hgo
      | running t => simpa [runToExit, hw, hp] using hgo

theorem joinFold_frame (l : List Nat) : ∀ (s : ThreadPool α ε),
    (l.foldl (fun st i => runToExit (2 * st.tasks.length + 2) st i) s).stopFlag = s.stopFlag ∧
    (l.foldl (fun st i => runToExit (2 * st.tasks.length + 2) st i) s).nextTid = s.nextTid ∧
    (l.foldl (fun st i => runToExit (2 * st.tasks.length + 2) st i) s).workers.map Worker.tid
      = s.workers.map Worker.tid := by
  induction l with
  | nil => intro s; exact ⟨rfl, rfl, rfl⟩
  | cons a l ih =>
    intro s
    have h1 := runToExit_frame (2 * s.tasks.length + 2) s a
    have h2 := ih (runToExit (2 * s.tasks.length + 2) s a)
    exact ⟨h2.1.trans h1.1, h2.2.1.trans h1.2.1, h2.2.2.trans h1.2.2⟩

theorem stopJoin_frame (s : ThreadPool α ε) :
    (stopJoin s).stopFlag = s.stopFlag ∧ (stopJoin s).nextTid = s.nextTid := by
  by_cases hc : s.joining = true ∧ allExited s = true
  · rw [stopJoin_of_ready hc.1 hc.2]; exact ⟨rfl, rfl⟩
  · rw [stopJoin_of_not hc]; exact ⟨rfl, rfl⟩

theorem stop_of_stopped {s : ThreadPool α ε} (h : s.stopFlag = true) : stop s = s := by
  simp [stop, h]

theorem stop_frame (s : ThreadPool α ε) :
    (stop s).stopFlag = true ∧ (stop s).nextTid = s.nextTid := by
  cases hf : s.stopFlag with
  | true => rw [stop_of_stopped hf]; exact ⟨hf, rfl⟩
  | false =>
    have hst : stop s = stopJoin (joinAll (stopSignal s)) := by simp [stop, hf]
    have h1 := stopJoin_frame (joinAll (stopSignal s))
    have h2 := joinFold_frame (List.range (stopSignal s).workers.length) (stopSignal s)
    have h3 : (stopSignal s).stopFlag = true ∧ (stopSignal s).nextTid = s.nextTid := by
      rw [stopSignal_of_running hf]; exact ⟨rfl, rfl⟩
    rw [hst]
    exact ⟨h1.1.trans (h2.1.trans h3.1), h1.2.trans (h2.2.1.trans h3.2)⟩

/-! ## Futures -/

theorem slot_of_accepted {s : ThreadPool α ε} (hI : Inv s) {i : Nat} {t : Task α ε}
    (h : s.accepted[i]? = some t) : t.slot = i := by
  have hlt : i < s.accepted.length := by
    by_contra hc
    rw [List.getElem?_eq_none (by omega)] at h
    cases h
  have h1 : (s.accepted.map Task.slot)[i]? = some t.slot := by
    rw [List.getElem?_map, h]; rfl
  rw [hI.slots, List.getElem?_range hlt] at h1
  injection h1 with h1
  exact h1.symm

/-- The future of the `i`-th accepted task: `get` blocks until the task has
been run and then hands over the outcome of that very task. -/
theorem get_of_accepted {s : ThreadPool α ε} (hI : Inv s) {i : Nat} {t : Task α ε}
    (h : s.accepted[i]? = some t) :
    t.slot = i ∧
    ((t ∈ s.executed ∧ Future.get ⟨i, true⟩ s.shared = .done t.fn ⟨i, false⟩) ∨
     (t ∉ s.executed ∧ Future.get ⟨i, true⟩ s.shared = (.blocked : GetResult α ε))) := by
  have hs := slot_of_accepted hI h
  refine ⟨hs, ?_⟩
  by_cases hex : t ∈ s.executed
  · left
    have := hI.ready t hex
    rw [hs] at this
    exact ⟨hex, by simp [Future.get, this]⟩
  · right
    have := hI.pending t (List.getElem?_mem h) hex
    rw [hs] at this
    exact ⟨hex, by simp [Future.get, this]⟩

theorem enqueue_handle {s : ThreadPool α ε} (hI : Inv s) (f : Outcome α ε) (h : Future)
    (he : (enqueue s f).1 = .ok h) :
    h = ⟨s.accepted.length, true⟩ ∧
    (enqueue s f).2.accepted = s.accepted ++ [⟨h.slot, f⟩] ∧
    (enqueue s f).2.tasks = s.tasks ++ [⟨h.slot, f⟩] := by
  cases hf : s.stopFlag with
  | true => rw [enqueue_of_stopped f hf] at he; cases he
  | false =>
    rw [enqueue_of_running f hf] at he ⊢
    injection he with he
    subst he
    rw [hI.sharedLen]
    exact ⟨rfl, rfl, rfl⟩

/-! ## Events that are not the controlling thread's -/

theorem accepted_prefix_step (s : ThreadPool α ε) (e : Event α ε) :
    s.accepted <+: (step s e).accepted := by
  cases e with
  | submit f =>
    cases hf : s.stopFlag with
    | true => simp [step, enqueue_of_stopped f hf]
    | false => simp [step, enqueue_of_running f hf]
  | worker i =>
    show s.accepted <+: (workerStep s i).accepted
    rw [(workerStep_frame s i).2.2.1]
  | stopSignal =>
    simp only [step]
    split
    · exact List.prefix_refl _
    · cases hf : s.stopFlag with
      | true => rw [stopSignal_of_stopped hf]
      | false => rw [stopSignal_of_running hf]
  | stopJoin =>
    simp only [step]
    by_cases hc : s.joining = true ∧ allExited s = true
    · rw [stopJoin_of_ready hc.1 hc.2]
    · rw [stopJoin_of_not hc]
  | start n =>
    simp only [step]
    split
    · exact List.prefix_refl _
    · by_cases hw : s.workers = []
      · rw [start_of_empty n hw]
      · rw [start_of_workers n hw]

theorem accepted_prefix_run (evs : List (Event α ε)) : ∀ s : ThreadPool α ε,
    s.accepted <+: (run s evs).accepted := by
  induction evs with
  | nil => intro s; exact List.prefix_refl _
  | cons e es ih =>
    intro s
    exact (accepted_prefix_step s e).trans (ih (step s e))

theorem executed_prefix_step (s : ThreadPool α ε) (e : Event α ε) :
    s.executed <+: (step s e).executed := by
  cases e with
  | submit f =>
    cases hf : s.stopFlag with
    | true => simp [step, enqueue_of_stopped f hf]
    | false => simp [step, enqueue_of_running f hf]
  | worker i =>
    show s.executed <+: (workerStep s i).executed
    unfold workerStep
    split
    · exact List.prefix_refl _
    · split
      · split
        · split <;> exact List.prefix_refl _
        · exact List.prefix_refl _
      · split
        · exact List.prefix_append _ _
        · exact List.prefix_refl _
      · exact List.prefix_refl _
      · exact List.prefix_refl _
  | stopSignal =>
    simp only [step]
    split
    · exact List.prefix_refl _
    · cases hf : s.stopFlag with
      | true => rw [stopSignal_of_stopped hf]
      | false => rw [stopSignal_of_running hf]
  | stopJoin =>
    simp only [step]
    by_cases hc : s.joining = true ∧ allExited s = true
    · rw [stopJoin_of_ready hc.1 hc.2]
    · rw [stopJoin_of_not hc]
  | start n =>
    simp only [step]
    split
    · exact List.prefix_refl _
    · by_cases hw : s.workers = []
      · rw [start_of_empty n hw]
      · rw [start_of_workers n hw]

theorem executed_prefix_run (evs : List (Event α ε)) : ∀ s : ThreadPool α ε,
    s.executed <+: (run s evs).executed := by
  induction evs with
  | nil => intro s; exact List.prefix_refl _
  | cons e es ih =>
    intro s
    exact (executed_prefix_step s e).trans (ih (step s e))

theorem concurrent_step_frame (s : ThreadPool α ε) (e : Event α ε)
    (he : e.isController = false) :
    (step s e).stopFlag = s.stopFlag ∧ (step s e).joining = s.joining ∧
    (step s e).workers.length = s.workers.length := by
  cases e with
  | submit f =>
    cases hf : s.stopFlag with
    | true => simp [step, enqueue_of_stopped f hf, hf]
    | false => simp [step, enqueue_of_running f hf, hf]
  | worker i =>
    have := workerStep_frame s i
    exact ⟨this.1, this.2.1, this.2.2.2.2.2.1⟩
  | stopSignal => cases he
  | stopJoin => cases he
  | start n => cases he

theorem concurrent_run_frame (evs : List (Event α ε)) : ∀ s : ThreadPool α ε,
    (∀ e ∈ evs, e.isController = false) →
    (run s evs).stopFlag = s.stopFlag ∧ (run s evs).joining = s.joining ∧
    (run s evs).workers.length = s.workers.length := by
  induction evs with
  | nil => intro s _; exact ⟨rfl, rfl, rfl⟩
  | cons e es ih =>
    intro s h
    have h1 := concurrent_step_frame s e (h e (List.mem_cons_self _ _))
    have h2 := ih (step s e) (fun x hx => h x (List.mem_cons_of_mem _ hx))
    exact ⟨h2.1.trans h1.1, h2.2.1.trans h1.2.1, h2.2.2.trans h1.2.2⟩

/-! ## Restart -/

/-- `start(n)` on a pool that is stopped, with `stop()` returned: the flag is
cleared, exactly `n` fresh workers wait for work, and `enqueue` is accepted. -/
theorem start_of_stopped {s : ThreadPool α ε} (hI : Inv s) (hf : s.stopFlag = true)
    (hj : s.joining = false) (n : Nat) (f : Outcome α ε) :
    (start s n).stopFlag = false ∧ (start s n).num_threads = n ∧
    (start s n).workers = (List.range n).map (fun i => spawn (s.nextTid + i)) ∧
    (start s n).workers.length = n ∧
    (∀ w ∈ (start s n).workers, w.phase = .waiting ∧ s.nextTid ≤ w.tid) ∧
    (start s n).tasks = s.tasks ∧
    (enqueue (start s n) f).1 = .ok ⟨(start s n).shared.length, true⟩ ∧
    (enqueue (start s n) f).2.tasks = s.tasks ++ [⟨(start s n).shared.length, f⟩] := by
  have hw := hI.stopped hf hj
  have hst := start_of_empty n hw
  have hfl : (start s n).stopFlag = false := by rw [hst]
  refine ⟨hfl, by rw [hst], by rw [hst], by rw [hst]; simp, ?_, by rw [hst], ?_, ?_⟩
  · intro w hwm
    rw [hst] at hwm
    simp only [List.mem_map, List.mem_range] at hwm
    obtain ⟨i, _, rfl⟩ := hwm
    exact ⟨rfl, Nat.le_add_right _ _⟩
  · rw [enqueue_of_running f hfl]
  · rw [enqueue_of_running f hfl, hst]

/-! ## Progress of the workers after the stop signal -/

theorem weight_set (ws : List (Worker α ε)) (i : Nat) (w w' : Worker α ε)
    (h : ws[i]? = some w) :
    ((ws.set i w').map (fun w => w.phase.weight)).sum + w.phase.weight
      = (ws.map (fun w => w.phase.weight)).sum + w'.phase.weight := by
  induction ws generalizing i with
  | nil => simp at h
  | cons a l ih =>
    cases i with
    | zero =>
      simp at h
      subst h
      simp only [List.set_cons_zero, List.map_cons, List.sum_cons]
      omega
    | succ j =>
      simp at h
      have := ih j h
      simp only [List.set_cons_succ, List.map_cons, List.sum_cons]
      omega

/-- With the stop flag set, every step of a worker that has not yet returned
uses up one unit of `work`: the workers return after at most `work` steps,
whatever the schedule. -/
theorem work_workerStep {s : ThreadPool α ε} {i : Nat} {w : Worker α ε} (hI : Inv s)
    (hf : s.stopFlag = true) (hw : s.workers[i]? = some w) (hp : w.phase ≠ .exited) :
    work (workerStep s i) + 1 = work s := by
  cases hq : w.phase with
  | exited => exact absurd hq hp
  | terminated => exact absurd hq (hI.alive w (List.getElem?_mem hw))
  | waiting =>
    cases ht : s.tasks with
    | nil =>
      rw [workerStep_exit hw hq ht hf]
      have := weight_set s.workers i w { w with phase := .exited } hw
      simp only [work, ht, hq, Phase.weight] at this ⊢
      omega
    | cons t rest =>
      rw [workerStep_take hw hq ht]
      have := weight_set s.workers i w { w with phase := .running t } hw
      simp only [work, ht, hq, Phase.weight, List.length_cons] at this ⊢
      omega
  | running t =>
    obtain ⟨_, _, hcall⟩ := held_fresh hI hw hq
    rw [workerStep_exec hw hq hcall]
    have := weight_set s.workers i w { w with phase := .waiting } hw
    simp only [work, hq, Phase.weight] at this ⊢
    omega

/-! ## The claims -/

/-- C1: `enqueue` throws the runtime error "enqueue on stopped ThreadPool"
exactly when `stopFlag` is set at the call, it throws nothing else, and when it
throws the pool after the call is the pool before it: nothing was pushed, and
the queue, the workers and the flag are as they were. -/
theorem enqueue_rejects_iff_stopped (s : ThreadPool α ε) (f : Outcome α ε) :
    ((enqueue s f).1 = .error (.runtime_error "enqueue on stopped ThreadPool")
      ↔ s.stopFlag = true) ∧
    ((∃ e, (enqueue s f).1 = .error e) ↔ s.stopFlag = true) ∧
    (∀ e, (enqueue s f).1 = .error e →
      (enqueue s f).2 = s ∧ step s (.submit f) = s ∧
      (enqueue s f).2.tasks = s.tasks ∧ (enqueue s f).2.workers = s.workers ∧
      (enqueue s f).2.stopFlag = s.stopFlag) := by
  cases hf : s.stopFlag with
  | true =>
    have he := enqueue_of_stopped f hf
    refine ⟨by simp [he], by simp [he], ?_⟩
    intro e _
    simp [step, he, hf]
  | false =>
    have he := enqueue_of_running f hf
    refine ⟨by simp [he], by simp [he], ?_⟩
    intro e h
    rw [he] at h
    cases h

/-- C1, on a pool that was constructed with two threads and stopped. -/
theorem enqueue_rejects_iff_stopped_witness :
    (stop (construct 2 : ThreadPool Nat String)).stopFlag = true ∧
    (enqueue (stop (construct 2 : ThreadPool Nat String)) (.value 7)).1
      = .error (.runtime_error "enqueue on stopped ThreadPool") ∧
    (enqueue (stop (construct 2 : ThreadPool Nat String)) (.value 7)).2
      = stop (construct 2 : ThreadPool Nat String) :=
  ⟨by decide,
   (enqueue_rejects_iff_stopped (stop (construct 2 : ThreadPool Nat String)) (.value 7)).1.2
     (by decide),
   ((enqueue_rejects_iff_stopped (stop (construct 2 : ThreadPool Nat String)) (.value 7)).2.2
     (.runtime_error "enqueue on stopped ThreadPool") rfl).1⟩

/-- C2, as stated, fails: a pool constructed with zero threads is Running (the
stop flag is clear), yet `start(2)` on it spawns two workers and stores the
thread count 2. -/
theorem start_on_running_not_noop :
    (construct 0 : ThreadPool Nat String).stopFlag = false ∧
    (construct 0 : ThreadPool Nat String).workers = [] ∧
    (construct 0 : ThreadPool Nat String).num_threads = 0 ∧
    (start (construct 0 : ThreadPool Nat String) 2).workers
      = [⟨0, .waiting⟩, ⟨1, .waiting⟩] ∧
    (start (construct 0 : ThreadPool Nat String) 2).num_threads = 2 ∧
    ¬ (∀ (n0 : Nat) (evs : List (Event Nat String)) (n : Nat),
        (run (construct n0) evs).stopFlag = false →
        start (run (construct n0) evs) n = run (construct n0) evs) := by
  refine ⟨by decide, by decide, by decide, by decide, by decide, ?_⟩
  intro h
  have := h 0 [] 2 (by decide)
  revert this
  decide

/-- C2, amended: on every pool whose worker set is not empty, `start(n)` is a
no-op for every `n`: the pool after the call is the pool before it (workers,
queue, stop flag and stored thread count included). -/
theorem start_noop_of_workers (s : ThreadPool α ε) (n : Nat) (h : s.workers ≠ []) :
    start s n = s ∧ (start s n).workers = s.workers ∧ (start s n).tasks = s.tasks ∧
    (start s n).stopFlag = s.stopFlag ∧ (start s n).num_threads = s.num_threads := by
  rw [start_of_workers n h]
  exact ⟨rfl, rfl, rfl, rfl, rfl⟩

/-- C2 amended, on a pool constructed with two threads that holds one task. -/
theorem start_noop_of_workers_witness :
    (run (construct 2 : ThreadPool Nat String) [.submit (.value 7)]).workers ≠ [] ∧
    start (run (construct 2 : ThreadPool Nat String) [.submit (.value 7)]) 5
      = run (construct 2 : ThreadPool Nat String) [.submit (.value 7)] :=
  ⟨by decide,
   (start_noop_of_workers (run (construct 2 : ThreadPool Nat String) [.submit (.value 7)]) 5
     (by decide)).1⟩

/-- C9: `stop()` on a pool whose stop flag is set returns the pool unchanged
(flag, workers and queue included), and for every pool `stop()` followed by
`stop()` gives the same pool as one `stop()`. -/
theorem stop_idempotent (s : ThreadPool α ε) :
    (s.stopFlag = true → stop s = s ∧ (stop s).stopFlag = s.stopFlag ∧
      (stop s).workers = s.workers ∧ (stop s).tasks = s.tasks) ∧
    stop (stop s) = stop s := by
  constructor
  · intro h
    rw [stop_of_stopped h]
    exact ⟨rfl, rfl, rfl, rfl⟩
  · exact stop_of_stopped (stop_frame s).1

/-- C9, on a pool with two threads and a queued task, stopped once. -/
theorem stop_idempotent_witness :
    (stop (run (construct 2 : ThreadPool Nat String) [.submit (.value 7)])).stopFlag = true ∧
    stop (stop (run (construct 2 : ThreadPool Nat String) [.submit (.value 7)]))
      = stop (run (construct 2 : ThreadPool Nat String) [.submit (.value 7)]) :=
  ⟨by decide,
   ((stop_idempotent (stop (run (construct 2 : ThreadPool Nat String) [.submit (.value 7)]))).1
     (by decide)).1⟩

/-- C3, as stated, fails: a pool constructed with zero threads accepts a task,
and after `stop()` has returned that task is still in the queue and has not
been run. -/
theorem stop_without_workers_keeps_queue :
    (enqueue (construct 0 : ThreadPool Nat String) (.value 7)).1 = .ok ⟨0, true⟩ ∧
    (run (construct 0 : ThreadPool Nat String) [.submit (.value 7)]).tasks
      = [⟨0, .value 7⟩] ∧
    (stop (run (construct 0 : ThreadPool Nat String) [.submit (.value 7)])).stopFlag = true ∧
    (stop (run (construct 0 : ThreadPool Nat String) [.submit (.value 7)])).joining = false ∧
    (stop (run (construct 0 : ThreadPool Nat String) [.submit (.value 7)])).tasks
      = [⟨0, .value 7⟩] ∧
    (stop (run (construct 0 : ThreadPool Nat String) [.submit (.value 7)])).executed = [] ∧
    run (construct 0 : ThreadPool Nat String) [.submit (.value 7), .stopSignal, .stopJoin]
      = stop (run (construct 0 : ThreadPool Nat String) [.submit (.value 7)]) := by
  refine ⟨rfl, by decide, by decide, by decide, by decide, by decide, by decide⟩

/-- C3, amended: for every reachable pool that is Running and has at least one
worker, `stop()` returns with the flag set and the workers joined and cleared,
the queue is then empty, and every task that was queued when `stop()` was
invoked has been run and its outcome stored.  The same holds under every
interleaving of worker steps and submissions between the stop signal and the
moment all workers have returned, and until then every step of a worker that
has not returned uses up one unit of `work`, so that moment comes. -/
theorem stop_drains_queue (n0 : Nat) (evs : List (Event α ε))
    (hrun : (run (construct n0) evs).stopFlag = false)
    (hw : (run (construct n0) evs).workers ≠ []) :
    ((stop (run (construct n0) evs)).stopFlag = true ∧
      (stop (run (construct n0) evs)).joining = false ∧
      (stop (run (construct n0) evs)).workers = [] ∧
      (stop (run (construct n0) evs)).tasks = [] ∧
      ∀ t ∈ (run (construct n0) evs).tasks,
        t ∈ (stop (run (construct n0) evs)).executed ∧
        (stop (run (construct n0) evs)).shared[t.slot]? = some (some t.fn)) ∧
    (∀ evs' : List (Event α ε), (∀ e ∈ evs', e.isController = false) →
      allExited (run (stopSignal (run (construct n0) evs)) evs') = true →
      (stopJoin (run (stopSignal (run (construct n0) evs)) evs')).joining = false ∧
      (stopJoin (run (stopSignal (run (construct n0) evs)) evs')).workers = [] ∧
      (stopJoin (run (stopSignal (run (construct n0) evs)) evs')).tasks = [] ∧
      ∀ t ∈ (run (construct n0) evs).tasks,
        t ∈ (stopJoin (run (stopSignal (run (construct n0) evs)) evs')).executed ∧
        (stopJoin (run (stopSignal (run (construct n0) evs)) evs')).shared[t.slot]?
          = some (some t.fn)) ∧
    (∀ evs' : List (Event α ε), (∀ e ∈ evs', e.isController = false) →
      ∀ (i : Nat) (w : Worker α ε),
        (run (stopSignal (run (construct n0) evs)) evs').workers[i]? = some w →
        w.phase ≠ .exited →
        work (workerStep (run (stopSignal (run (construct n0) evs)) evs') i) + 1
          = work (run (stopSignal (run (construct n0) evs)) evs')) := by
  have hI := inv_reach n0 evs
  generalize run (construct n0) evs = s at hrun hw hI
  have hsub : ∀ t ∈ s.tasks, t ∈ s.accepted := by
    intro t ht
    rw [← hI.fifo]
    exact List.mem_append_right _ ht
  refine ⟨?_, ?_, ?_⟩
  · obtain ⟨a, b, c, d, e, f⟩ := stop_spec hI hrun
    obtain ⟨f1, f2⟩ := f hw
    refine ⟨b, c, d, f1, ?_⟩
    intro t ht
    have hex : t ∈ (stop s).executed := f2.symm.subset (hsub t ht)
    exact ⟨hex, a.ready t hex⟩
  · intro evs' hev hall
    have h1 := inv_stopSignal hI
    have hs1 : stopSignal s = { s with stopFlag := true, joining := true } :=
      stopSignal_of_running hrun
    have hI2 := inv_run evs' h1
    obtain ⟨_, c2, c3⟩ := concurrent_run_frame evs' (stopSignal s) hev
    have hj : (run (stopSignal s) evs').joining = true := by rw [c2, hs1]
    have hlen : (run (stopSignal s) evs').workers.length = s.workers.length := by
      rw [c3, hs1]
    have hacc : s.accepted <+: (run (stopSignal s) evs').accepted := by
      have := accepted_prefix_run evs' (stopSignal s)
      rw [hs1] at this
      rw [hs1]
      exact this
    generalize run (stopSignal s) evs' = s2 at hall hI2 hj hlen hacc
    have hne2 : s2.workers ≠ [] := by
      intro hc
      rw [hc] at hlen
      exact hw (List.length_eq_zero.1 hlen.symm)
    obtain ⟨w, l, hwl⟩ := List.exists_cons_of_ne_nil hne2
    have hwm : w ∈ s2.workers := by rw [hwl]; exact List.mem_cons_self _ _
    have ht2 : s2.tasks = [] := hI2.drained ⟨w, hwm, (allExited_iff.1 hall) w hwm⟩
    have hperm := executed_of_idle hI2 ht2 (inFlight_of_allExited hall)
    rw [stopJoin_of_ready hj hall]
    refine ⟨rfl, rfl, ht2, ?_⟩
    intro t ht
    have hex : t ∈ s2.executed := hperm.symm.subset (hacc.subset (hsub t ht))
    exact ⟨hex, hI2.ready t hex⟩
  · intro evs' hev i w hwi hp
    have hI2 := inv_run evs' (inv_stopSignal hI)
    have hf2 : (run (stopSignal s) evs').stopFlag = true := by
      rw [(concurrent_run_frame evs' (stopSignal s) hev).1, stopSignal_of_running hrun]
    exact work_workerStep hI2 hf2 hwi hp

/-- C3 amended, on a pool with two threads: two tasks are accepted, one has
been popped by a worker, and `stop()` is called. -/
theorem stop_drains_queue_witness :
    (run (construct 2 : ThreadPool Nat String)
      [.submit (.value 7), .submit (.failure "boom"), .worker 1]).stopFlag = false ∧
    (run (construct 2 : ThreadPool Nat String)
      [.submit (.value 7), .submit (.failure "boom"), .worker 1]).tasks
        = [⟨1, .failure "boom"⟩] ∧
    (stop (run (construct 2 : ThreadPool Nat String)
      [.submit (.value 7), .submit (.failure "boom"), .worker 1])).tasks = [] :=
  ⟨by decide, by decide,
   (stop_drains_queue 2 [.submit (.value 7), .submit (.failure "boom"), .worker 1]
     (by decide) (by decide)).1.2.2.2.1⟩

/-- C4: in every state reachable from a freshly constructed pool by any
sequence of submissions, worker steps, `stop` and `start`: the tasks popped by
workers followed by the tasks still queued are exactly the accepted tasks;
no accepted task occurs twice, so none is popped twice; every popped task is
either held by one worker or has been run once, never both and never twice;
and once the queue is empty and no worker holds a task, the tasks run are the
accepted tasks and the number of executions is the number of accepted tasks. -/
theorem each_task_exactly_once (n0 : Nat) (evs : List (Event α ε)) :
    (run (construct n0) evs).taken ++ (run (construct n0) evs).tasks
      = (run (construct n0) evs).accepted ∧
    (run (construct n0) evs).accepted.Nodup ∧
    ((run (construct n0) evs).accepted.map Task.slot).Nodup ∧
    ((run (construct n0) evs).taken ++ (run (construct n0) evs).tasks).Nodup ∧
    ((run (construct n0) evs).executed ++ inFlight (run (construct n0) evs)).Perm
      (run (construct n0) evs).taken ∧
    ((run (construct n0) evs).executed ++ inFlight (run (construct n0) evs)).Nodup ∧
    ((run (construct n0) evs).tasks = [] → inFlight (run (construct n0) evs) = [] →
      (run (construct n0) evs).executed.Perm (run (construct n0) evs).accepted ∧
      (run (construct n0) evs).executed.Nodup ∧
      (run (construct n0) evs).executed.length = (run (construct n0) evs).accepted.length) := by
  have hI := inv_reach n0 evs
  generalize run (construct n0) evs = s at hI
  have hnd := accepted_nodup hI
  have hnd2 : (s.executed ++ inFlight s).Nodup := hI.held.nodup_iff.2 (taken_nodup hI)
  refine ⟨hI.fifo, hnd, ?_, ?_, hI.held, hnd2, ?_⟩
  · rw [hI.slots]; exact List.nodup_range _
  · rw [hI.fifo]; exact hnd
  · intro ht hfl
    have hp := executed_of_idle hI ht hfl
    exact ⟨hp, hp.nodup_iff.2 hnd, hp.length_eq⟩

/-- C4, on a pool with two threads: three tasks are accepted and all three
are popped and run, by either worker. -/
theorem each_task_exactly_once_witness :
    (run (construct 2 : ThreadPool Nat String)
      [.submit (.value 0), .submit (.value 1), .worker 0, .worker 1, .submit (.value 4),
       .worker 1, .worker 1, .worker 0, .worker 1]).tasks = [] ∧
    inFlight (run (construct 2 : ThreadPool Nat String)
      [.submit (.value 0), .submit (.value 1), .worker 0, .worker 1, .submit (.value 4),
       .worker 1, .worker 1, .worker 0, .worker 1]) = [] ∧
    (run (construct 2 : ThreadPool Nat String)
      [.submit (.value 0), .submit (.value 1), .worker 0, .worker 1, .submit (.value 4),
       .worker 1, .worker 1, .worker 0, .worker 1]).executed.length
      = (run (construct 2 : ThreadPool Nat String)
      [.submit (.value 0), .submit (.value 1), .worker 0, .worker 1, .submit (.value 4),
       .worker 1, .worker 1, .worker 0, .worker 1]).accepted.length :=
  ⟨by decide, by decide,
   ((each_task_exactly_once 2
      [.submit (.value 0), .submit (.value 1), .worker 0, .worker 1, .submit (.value 4),
       .worker 1, .worker 1, .worker 0, .worker 1]).2.2.2.2.2.2 (by decide) (by decide)).2.2⟩

/-- C6: an accepted `enqueue` appends its task at the tail of the queue, a
worker that pops removes the head of the queue, and in every reachable state
the sequence of tasks popped by workers, in the order they were popped, is a
prefix of the sequence of accepted tasks, in the order they were accepted. -/
theorem fifo_dispatch :
    (∀ (s : ThreadPool α ε) (f : Outcome α ε), s.stopFlag = false →
      (enqueue s f).2.tasks = s.tasks ++ [⟨s.shared.length, f⟩] ∧
      (enqueue s f).2.accepted = s.accepted ++ [⟨s.shared.length, f⟩] ∧
      (enqueue s f).2.taken = s.taken) ∧
    (∀ (s : ThreadPool α ε) (i : Nat) (w : Worker α ε) (t : Task α ε) (rest : List (Task α ε)),
      s.workers[i]? = some w → w.phase = .waiting → s.tasks = t :: rest →
      (workerStep s i).tasks = rest ∧
      (workerStep s i).workers[i]? = some { w with phase := .running t } ∧
      (workerStep s i).taken = s.taken ++ [t] ∧
      (workerStep s i).accepted = s.accepted) ∧
    (∀ (n0 : Nat) (evs : List (Event α ε)),
      (run (construct n0) evs).taken <+: (run (construct n0) evs).accepted ∧
      (run (construct n0) evs).accepted
        = (run (construct n0) evs).taken ++ (run (construct n0) evs).tasks) := by
  refine ⟨?_, ?_, ?_⟩
  · intro s f hf
    rw [enqueue_of_running f hf]
    exact ⟨rfl, rfl, rfl⟩
  · intro s i w t rest hw hp ht
    have hlt : i < s.workers.length := by
      by_contra hc
      rw [List.getElem?_eq_none (by omega)] at hw
      cases hw
    rw [workerStep_take hw hp ht]
    exact ⟨rfl, List.getElem?_set_self hlt, rfl, rfl⟩
  · intro n0 evs
    have hI := inv_reach n0 evs
    exact ⟨⟨_, hI.fifo⟩, hI.fifo.symm⟩

/-- C6, on a pool with one thread that holds three tasks: the first submitted
is the first popped. -/
theorem fifo_dispatch_witness :
    (run (construct 1 : ThreadPool Nat String)
      [.submit (.value 0), .submit (.value 1), .submit (.value 4)]).tasks
      = [⟨0, .value 0⟩, ⟨1, .value 1⟩, ⟨2, .value 4⟩] ∧
    (workerStep (run (construct 1 : ThreadPool Nat String)
      [.submit (.value 0), .submit (.value 1), .submit (.value 4)]) 0).taken
      = [⟨0, .value 0⟩] :=
  ⟨by decide,
   ((fifo_dispatch (α := Nat) (ε := String)).2.1
      (run (construct 1 : ThreadPool Nat String)
        [.submit (.value 0), .submit (.value 1), .submit (.value 4)])
      0 ⟨0, .waiting⟩ ⟨0, .value 0⟩ [⟨1, .value 1⟩, ⟨2, .value 4⟩]
      (by decide) rfl (by decide)).2.2.1⟩

/-- C8: in every reachable state, the future returned by the `i`-th accepted
submission refers to slot `i`, the slot of the task that submission pushed, and
`get` on it either blocks (the task has not been run) or hands over exactly the
outcome of that task.  In particular, when the accepted tasks return `g i` for
`i` in `[0, K)` in that order (`g i = i * i` in the test), `get` on the `i`-th
future of a task that has been run returns `g i`; and after `stop()` on a
running pool with at least one worker every such `get` returns. -/
theorem value_fidelity (n0 : Nat) (evs : List (Event α ε)) :
    (∀ (f : Outcome α ε) (h : Future),
      (enqueue (run (construct n0) evs) f).1 = .ok h →
      h = ⟨(run (construct n0) evs).accepted.length, true⟩ ∧
      (enqueue (run (construct n0) evs) f).2.accepted
        = (run (construct n0) evs).accepted ++ [⟨h.slot, f⟩]) ∧
    (∀ (i : Nat) (t : Task α ε), (run (construct n0) evs).accepted[i]? = some t →
      t.slot = i ∧
      ((t ∈ (run (construct n0) evs).executed ∧
          Future.get ⟨i, true⟩ (run (construct n0) evs).shared = .done t.fn ⟨i, false⟩) ∨
       (t ∉ (run (construct n0) evs).executed ∧
          Future.get ⟨i, true⟩ (run (construct n0) evs).shared = .blocked))) ∧
    (∀ (g : Nat → α) (K : Nat),
      (run (construct n0) evs).accepted.map Task.fn
        = (List.range K).map (fun i => Outcome.value (g i)) →
      ∀ i, i < K →
        (⟨i, .value (g i)⟩ ∈ (run (construct n0) evs).executed →
          Future.get ⟨i, true⟩ (run (construct n0) evs).shared
            = .done (.value (g i)) ⟨i, false⟩) ∧
        ((run (construct n0) evs).stopFlag = false → (run (construct n0) evs).workers ≠ [] →
          Future.get ⟨i, true⟩ (stop (run (construct n0) evs)).shared
            = .done (.value (g i)) ⟨i, false⟩)) := by
  have hI := inv_reach n0 evs
  generalize run (construct n0) evs = s at hI
  refine ⟨?_, ?_, ?_⟩
  · intro f h he
    exact ⟨(enqueue_handle hI f h he).1, (enqueue_handle hI f h he).2.1⟩
  · intro i t h
    exact get_of_accepted hI h
  · intro g K hg i hi
    have hlen : s.accepted.length = K := by
      have := congrArg List.length hg
      simpa using this
    have hlt : i < s.accepted.length := by omega
    have hget : s.accepted[i]? = some s.accepted[i] := List.getElem?_eq_getElem hlt
    have hfn : (s.accepted[i]).fn = .value (g i) := by
      have h1 : (s.accepted.map Task.fn)[i]? = some (s.accepted[i]).fn := by
        rw [List.getElem?_map, hget]; rfl
      rw [hg, List.getElem?_map, List.getElem?_range hi] at h1
      injection h1 with h1
      exact h1.symm
    have hslot := slot_of_accepted hI hget
    have hti : s.accepted[i] = ⟨i, .value (g i)⟩ := by
      cases hx : s.accepted[i] with
      | mk sl fn =>
        rw [hx] at hfn hslot
        simp only at hfn hslot
        rw [hfn, hslot]
    rw [hti] at hget
    constructor
    · intro hex
      rcases (get_of_accepted hI hget).2 with h | h
      · exact h.2
      · exact absurd hex h.1
    · intro hf hw
      obtain ⟨a, _, _, _, e, f⟩ := stop_spec hI hf
      obtain ⟨_, f2⟩ := f hw
      have hget' : (stop s).accepted[i]? = some ⟨i, .value (g i)⟩ := by rw [e]; exact hget
      have hex : (⟨i, .value (g i)⟩ : Task α ε) ∈ (stop s).executed :=
        f2.symm.subset (List.getElem?_mem hget)
      rcases (get_of_accepted a hget').2 with h | h
      · exact h.2
      · exact absurd hex h.1

/-- C8, on a pool with two threads and the tasks returning `i * i` for
`i < 3`: after `stop()` the future of task 2 yields 4. -/
theorem value_fidelity_witness :
    (run (construct 2 : ThreadPool Nat String)
      [.submit (.value (0 * 0)), .submit (.value (1 * 1)), .worker 1,
       .submit (.value (2 * 2))]).accepted.map Task.fn
      = (List.range 3).map (fun i => Outcome.value (i * i)) ∧
    Future.get ⟨2, true⟩ (stop (run (construct 2 : ThreadPool Nat String)
      [.submit (.value (0 * 0)), .submit (.value (1 * 1)), .worker 1,
       .submit (.value (2 * 2))])).shared = .done (.value (2 * 2)) ⟨2, false⟩ :=
  ⟨by decide,
   (((value_fidelity 2
      [.submit (.value (0 * 0)), .submit (.value (1 * 1)), .worker 1,
       .submit (.value (2 * 2))]).2.2 (fun i => i * i) 3 (by decide)) 2 (by decide)).2
     (by decide) (by decide)⟩

/-- C10, as stated, fails: a task returning 7 is accepted and run; the first
`get` on its future returns 7 and leaves the future invalid, and a second `get`
on the same future has no defined result instead of returning 7 again. -/
theorem second_get_not_cached :
    (enqueue (construct 1 : ThreadPool Nat String) (.value 7)).1 = .ok ⟨0, true⟩ ∧
    (run (construct 1 : ThreadPool Nat String)
      [.submit (.value 7), .worker 0, .worker 0]).executed = [⟨0, .value 7⟩] ∧
    Future.get ⟨0, true⟩ (run (construct 1 : ThreadPool Nat String)
      [.submit (.value 7), .worker 0, .worker 0]).shared = .done (.value 7) ⟨0, false⟩ ∧
    Future.get ⟨0, false⟩ (run (construct 1 : ThreadPool Nat String)
      [.submit (.value 7), .worker 0, .worker 0]).shared = .noState ∧
    Future.get ⟨0, false⟩ (run (construct 1 : ThreadPool Nat String)
      [.submit (.value 7), .worker 0, .worker 0]).shared
      ≠ Future.get ⟨0, true⟩ (run (construct 1 : ThreadPool Nat String)
      [.submit (.value 7), .worker 0, .worker 0]).shared := by
  refine ⟨rfl, by decide, by decide, by decide, by decide⟩

/-- C10, amended: for the future returned by the `i`-th accepted submission,
once its task has been run, the first `get` returns exactly the outcome of that
task and leaves the future invalid; a second `get` on the same future has
no defined result. -/
theorem get_once (n0 : Nat) (evs : List (Event α ε)) (i : Nat) (t : Task α ε)
    (hacc : (run (construct n0) evs).accepted[i]? = some t)
    (hex : t ∈ (run (construct n0) evs).executed) :
    Future.get ⟨i, true⟩ (run (construct n0) evs).shared = .done t.fn ⟨i, false⟩ ∧
    Future.get ⟨i, false⟩ (run (construct n0) evs).shared = .noState := by
  have hI := inv_reach n0 evs
  constructor
  · rcases (get_of_accepted hI hacc).2 with h | h
    · exact h.2
    · exact absurd hex h.1
  · simp [Future.get]

/-- C10 amended, on a pool with one thread after its only task has been run. -/
theorem get_once_witness :
    (run (construct 1 : ThreadPool Nat String)
      [.submit (.value 7), .worker 0, .worker 0]).accepted[0]? = some ⟨0, .value 7⟩ ∧
    Future.get ⟨0, true⟩ (run (construct 1 : ThreadPool Nat String)
      [.submit (.value 7), .worker 0, .worker 0]).shared = .done (.value 7) ⟨0, false⟩ :=
  ⟨by decide,
   (get_once 1 [.submit (.value 7), .worker 0, .worker 0] 0 ⟨0, .value 7⟩
     (by decide) (by decide)).1⟩

/-- C5: for every reachable pool on which the controlling thread can call
`stop()`, and every `n`: `stop()` returns with the flag set and no workers;
`start(n)` then clears the flag, stores `n` and leaves exactly `n` workers, all
freshly spawned and waiting, none of them a thread of the pool before the
stop; and an `enqueue` after that start is accepted, returns a valid future
and appends its task to the queue.  The same holds in every reachable state in
which the pool is stopped and `stop()` has returned. -/
theorem restart_after_stop (n0 : Nat) (evs : List (Event α ε)) (n : Nat) (f : Outcome α ε)
    (hj : (run (construct n0) evs).joining = false) :
    ((stop (run (construct n0) evs)).stopFlag = true ∧
      (stop (run (construct n0) evs)).joining = false ∧
      (stop (run (construct n0) evs)).workers = [] ∧
      (start (stop (run (construct n0) evs)) n).stopFlag = false ∧
      (start (stop (run (construct n0) evs)) n).num_threads = n ∧
      (start (stop (run (construct n0) evs)) n).workers.length = n ∧
      (start (stop (run (construct n0) evs)) n).workers
        = (List.range n).map (fun i => spawn ((run (construct n0) evs).nextTid + i)) ∧
      (∀ w ∈ (start (stop (run (construct n0) evs)) n).workers,
        w.phase = .waiting ∧ ∀ w0 ∈ (run (construct n0) evs).workers, w.tid ≠ w0.tid) ∧
      (enqueue (start (stop (run (construct n0) evs)) n) f).1
        = .ok ⟨(start (stop (run (construct n0) evs)) n).shared.length, true⟩ ∧
      (enqueue (start (stop (run (construct n0) evs)) n) f).2.tasks
        = (start (stop (run (construct n0) evs)) n).tasks
          ++ [⟨(start (stop (run (construct n0) evs)) n).shared.length, f⟩]) ∧
    ((run (construct n0) evs).stopFlag = true →
      (run (construct n0) evs).workers = [] ∧
      (start (run (construct n0) evs) n).stopFlag = false ∧
      (start (run (construct n0) evs) n).workers.length = n ∧
      (∀ w ∈ (start (run (construct n0) evs) n).workers,
        w.phase = .waiting ∧ (run (construct n0) evs).nextTid ≤ w.tid) ∧
      (enqueue (start (run (construct n0) evs) n) f).1
        = .ok ⟨(start (run (construct n0) evs) n).shared.length, true⟩ ∧
      (enqueue (start (run (construct n0) evs) n) f).2.tasks
        = (start (run (construct n0) evs) n).tasks
          ++ [⟨(start (run (construct n0) evs) n).shared.length, f⟩]) := by
  have hI := inv_reach n0 evs
  generalize run (construct n0) evs = s at hj hI
  constructor
  · have hstop : Inv (stop s) ∧ (stop s).joining = false ∧ (stop s).workers = [] := by
      cases hf : s.stopFlag with
      | true =>
        rw [stop_of_stopped hf]
        exact ⟨hI, hj, hI.stopped hf hj⟩
      | false =>
        obtain ⟨a, _, c, d, _⟩ := stop_spec hI hf
        exact ⟨a, c, d⟩
    obtain ⟨hI', hj', hw'⟩ := hstop
    have hfr := stop_frame s
    obtain ⟨a, b, c, d, e, g, h, i⟩ := start_of_stopped hI' hfr.1 hj' n f
    refine ⟨hfr.1, hj', hw', a, b, d, by rw [c, hfr.2], ?_, h, by rw [i, g]⟩
    intro w hw
    refine ⟨(e w hw).1, ?_⟩
    intro w0 hw0
    have h1 := hI.tids w0 hw0
    have h2 := (e w hw).2
    rw [hfr.2] at h2
    omega
  · intro hf
    obtain ⟨a, _, _, d, e, g, h, i⟩ := start_of_stopped hI hf hj n f
    exact ⟨hI.stopped hf hj, a, d, e, h, by rw [i, g]⟩

/-- C5, on a pool with two threads and a queued task: stop, then `start(3)`,
then a submission. -/
theorem restart_after_stop_witness :
    (run (construct 2 : ThreadPool Nat String) [.submit (.value 7)]).joining = false ∧
    (start (stop (run (construct 2 : ThreadPool Nat String) [.submit (.value 7)])) 3).workers
      = [⟨2, .waiting⟩, ⟨3, .waiting⟩, ⟨4, .waiting⟩] ∧
    (enqueue (start (stop (run (construct 2 : ThreadPool Nat String) [.submit (.value 7)])) 3)
      (.value 9)).2.tasks = [⟨1, .value 9⟩] ∧
    (start (stop (run (construct 2 : ThreadPool Nat String) [.submit (.value 7)])) 3).stopFlag
      = false :=
  ⟨by decide, by decide, by decide,
   (restart_after_stop 2 [.submit (.value 7)] 3 (.value 9) (by decide)).1.2.2.2.1⟩

/-- C7: in every reachable state, when a worker runs a task whose callable
throws, the exception is stored as the outcome of that task's own shared
state and read back by its future; the worker is back at the wait of its loop,
no worker is terminated, and the worker pops the next task if one is queued;
the queue, the flag and every other shared state are untouched by the step,
and the queue, the flag, the workers and every other shared state are the same
as after running the same task with a callable that returns a value.  In every
later state the stored failure stays, no worker is terminated, and every task
that has been run has its own outcome stored. -/
theorem failure_stays_in_task (n0 : Nat) (evs : List (Event α ε)) (i : Nat)
    (w : Worker α ε) (t : Task α ε) (e : ε)
    (hw : (run (construct n0) evs).workers[i]? = some w)
    (hp : w.phase = .running t) (hfail : t.fn = .failure e) :
    (workerStep (run (construct n0) evs) i).shared[t.slot]? = some (some (.failure e)) ∧
    Future.get ⟨t.slot, true⟩ (workerStep (run (construct n0) evs) i).shared
      = .done (.failure e) ⟨t.slot, false⟩ ∧
    (workerStep (run (construct n0) evs) i).workers[i]? = some { w with phase := .waiting } ∧
    (∀ x ∈ (workerStep (run (construct n0) evs) i).workers, x.phase ≠ .terminated) ∧
    (∀ (t2 : Task α ε) (rest : List (Task α ε)),
      (run (construct n0) evs).tasks = t2 :: rest →
      (workerStep (workerStep (run (construct n0) evs) i) i).workers[i]?
        = some { w with phase := .running t2 }) ∧
    (workerStep (run (construct n0) evs) i).tasks = (run (construct n0) evs).tasks ∧
    (workerStep (run (construct n0) evs) i).stopFlag = (run (construct n0) evs).stopFlag ∧
    (∀ k, k ≠ t.slot → (workerStep (run (construct n0) evs) i).shared[k]?
      = (run (construct n0) evs).shared[k]?) ∧
    (∀ v : α,
      (workerStep (run (construct n0) evs) i).tasks
        = (workerStep { run (construct n0) evs with
            workers := (run (construct n0) evs).workers.set i
              { w with phase := .running { t with fn := .value v } } } i).tasks ∧
      (workerStep (run (construct n0) evs) i).stopFlag
        = (workerStep { run (construct n0) evs with
            workers := (run (construct n0) evs).workers.set i
              { w with phase := .running { t with fn := .value v } } } i).stopFlag ∧
      (workerStep (run (construct n0) evs) i).workers
        = (workerStep { run (construct n0) evs with
            workers := (run (construct n0) evs).workers.set i
              { w with phase := .running { t with fn := .value v } } } i).workers ∧
      ∀ k, k ≠ t.slot → (workerStep (run (construct n0) evs) i).shared[k]?
        = (workerStep { run (construct n0) evs with
            workers := (run (construct n0) evs).workers.set i
              { w with phase := .running { t with fn := .value v } } } i).shared[k]?) ∧
    (∀ evs' : List (Event α ε),
      (run (workerStep (run (construct n0) evs) i) evs').shared[t.slot]?
        = some (some (.failure e)) ∧
      (∀ x ∈ (run (workerStep (run (construct n0) evs) i) evs').workers,
        x.phase ≠ .terminated) ∧
      ∀ t2 ∈ (run (workerStep (run (construct n0) evs) i) evs').executed,
        (run (workerStep (run (construct n0) evs) i) evs').shared[t2.slot]?
          = some (some t2.fn)) := by
  have hI := inv_reach n0 evs
  generalize run (construct n0) evs = s at hw hI
  obtain ⟨hacc, hnex, hcall⟩ := held_fresh hI hw hp
  have hpend := hI.pending t hacc hnex
  have hlt : t.slot < s.shared.length := by
    by_contra hc
    rw [List.getElem?_eq_none (by omega)] at hpend
    cases hpend
  have hil : i < s.workers.length := by
    by_contra hc
    rw [List.getElem?_eq_none (by omega)] at hw
    cases hw
  have hstep := workerStep_exec hw hp hcall
  have hI1 := inv_workerStep i hI
  have hsh : (workerStep s i).shared[t.slot]? = some (some (.failure e)) := by
    rw [hstep, ← hfail]
    exact List.getElem?_set_self hlt
  have hwi : (workerStep s i).workers[i]? = some { w with phase := .waiting } := by
    rw [hstep]
    exact List.getElem?_set_self hil
  have htk : (workerStep s i).tasks = s.tasks := by rw [hstep]
  refine ⟨hsh, by simp [Future.get, hsh], hwi, hI1.alive, ?_, htk, by rw [hstep], ?_, ?_, ?_⟩
  · intro t2 rest ht
    have hlen : i < (workerStep s i).workers.length := by
      rw [(workerStep_frame s i).2.2.2.2.2.1]; exact hil
    rw [workerStep_take hwi rfl (htk.trans ht)]
    exact List.getElem?_set_self hlen
  · intro k hk
    rw [hstep]
    exact List.getElem?_set_ne (Ne.symm hk)
  · intro v
    have hw2 : ({ s with
          workers := s.workers.set i ⟨w.tid, .running ⟨t.slot, .value v⟩⟩ } :
          ThreadPool α ε).workers[i]? = some ⟨w.tid, .running ⟨t.slot, .value v⟩⟩ :=
      List.getElem?_set_self hil
    have hcall2 : packagedCall (⟨t.slot, .value v⟩ : Task α ε) s.shared
        = some (s.shared.set t.slot (some (.value v))) := by
      simp [packagedCall, hpend]
    rw [workerStep_exec hw2 rfl hcall2, hstep]
    refine ⟨rfl, rfl, ?_, ?_⟩
    · show s.workers.set i _ = (s.workers.set i _).set i _
      rw [List.set_set]
    · intro k hk
      show (s.shared.set t.slot _)[k]? = (s.shared.set t.slot _)[k]?
      rw [List.getElem?_set_ne (Ne.symm hk), List.getElem?_set_ne (Ne.symm hk)]
  · intro evs'
    have hI2 := inv_run evs' hI1
    have hex : t ∈ (run (workerStep s i) evs').executed := by
      apply (executed_prefix_run evs' (workerStep s i)).subset
      rw [hstep]
      exact List.mem_append_right _ (List.mem_singleton_self t)
    refine ⟨?_, hI2.alive, hI2.ready⟩
    rw [← hfail]
    exact hI2.ready t hex

/-- C7, on a pool with one thread: the first task throws, the second returns
9; the worker stores the failure, goes on, and the second future yields 9. -/
theorem failure_stays_in_task_witness :
    (run (construct 1 : ThreadPool Nat String)
      [.submit (.failure "Task failure!"), .submit (.value 9), .worker 0]).workers[0]?
      = some ⟨0, .running ⟨0, .failure "Task failure!"⟩⟩ ∧
    Future.get ⟨0, true⟩ (workerStep (run (construct 1 : ThreadPool Nat String)
      [.submit (.failure "Task failure!"), .submit (.value 9), .worker 0]) 0).shared
      = .done (.failure "Task failure!") ⟨0, false⟩ ∧
    Future.get ⟨1, true⟩ (run (construct 1 : ThreadPool Nat String)
      [.submit (.failure "Task failure!"), .submit (.value 9), .worker 0,
       .worker 0, .worker 0, .worker 0]).shared = .done (.value 9) ⟨1, false⟩ :=
  ⟨by decide,
   (failure_stays_in_task 1
      [.submit (.failure "Task failure!"), .submit (.value 9), .worker 0] 0
      ⟨0, .running ⟨0, .failure "Task failure!"⟩⟩ ⟨0, .failure "Task failure!"⟩
      "Task failure!" (by decide) rfl rfl).2.1,
   by decide⟩

end ThreadPool
